import Mathlib

/-!
Verification of the MLArtifactFS manifest generator (package `pkg/manifest`).

The Go sources are shallowly embedded below:
- Go strings are Lean `String`s; the `strings` package helpers used by the
  code (HasPrefix, HasSuffix, TrimSuffix, TrimSpace) are modelled on the
  underlying character lists.
- The target platform is Linux (per the repository README), so
  `filepath.Separator` is '/' and `filepath.ToSlash` maps '/' to '/'.
- Machine bytes are `Nat`s taken mod 256 where they are consumed; 32-bit
  words in SHA-256 are `Nat`s reduced mod 2^32 explicitly.
- Fallible Go functions returning `(T, error)` become `Except GoError T`.
-/

/-! ## Go string primitives (strings package, modelled on character lists) -/

/-- Character-list version of a prefix test: Go strings.HasPrefix. -/
def listStarts : List Char → List Char → Bool
  | [], _ => true
  | _ :: _, [] => false
  | p :: ps, c :: cs => p = c && listStarts ps cs

/-- Character-list version of a suffix test: Go strings.HasSuffix. -/
def listEnds (suf l : List Char) : Bool := listStarts suf.reverse l.reverse

/-- Go strings.HasPrefix on strings. -/
def goStartsWith (s pre : String) : Bool := listStarts pre.data s.data

/-- Go strings.HasSuffix on strings. -/
def goEndsWith (s suf : String) : Bool := listEnds suf.data s.data

/-- Go strings.TrimSuffix: removes exactly one copy of the suffix, if present. -/
def goTrimSuffix (s suf : String) : String :=
  if goEndsWith s suf then ⟨s.data.take (s.data.length - suf.data.length)⟩ else s

/-- Go unicode.IsSpace: the Unicode White_Space property, as tabled in Go. -/
def goIsSpace (c : Char) : Bool :=
  c.toNat = 9 || c.toNat = 10 || c.toNat = 11 || c.toNat = 12 || c.toNat = 13 ||
  c.toNat = 32 || c.toNat = 0x85 || c.toNat = 0xA0 || c.toNat = 0x1680 ||
  (0x2000 ≤ c.toNat && c.toNat ≤ 0x200A) || c.toNat = 0x2028 || c.toNat = 0x2029 ||
  c.toNat = 0x202F || c.toNat = 0x205F || c.toNat = 0x3000

/-- Go strings.TrimSpace: drop whitespace from both ends. -/
def goTrimSpace (s : String) : String :=
  ⟨((s.data.dropWhile goIsSpace).reverse.dropWhile goIsSpace).reverse⟩

/-- Go filepath.Separator on Linux. -/
def goSeparator : Char := '/'

/-- Go filepath.ToSlash: replace the OS separator by '/'. -/
def goToSlash (s : String) : String :=
  ⟨s.data.map (fun c => if c = goSeparator then '/' else c)⟩

/-! ## SHA-256 (crypto/sha256), over byte lists -/

/-- Truncation to a 32-bit word. -/
def w32 (n : Nat) : Nat := n % 4294967296

/-- 32-bit rotate right. -/
def rotr (k x : Nat) : Nat := w32 ((x >>> k) ||| (x <<< (32 - k)))

/-- SHA-256 Ch function; bitwise not is xor with the 32-bit mask. -/
def shaCh (x y z : Nat) : Nat := (x &&& y) ^^^ ((x ^^^ 4294967295) &&& z)

/-- SHA-256 Maj function. -/
def shaMaj (x y z : Nat) : Nat := (x &&& y) ^^^ (x &&& z) ^^^ (y &&& z)

/-- SHA-256 big sigma 0. -/
def bSig0 (x : Nat) : Nat := rotr 2 x ^^^ rotr 13 x ^^^ rotr 22 x

/-- SHA-256 big sigma 1. -/
def bSig1 (x : Nat) : Nat := rotr 6 x ^^^ rotr 11 x ^^^ rotr 25 x

/-- SHA-256 small sigma 0. -/
def sSig0 (x : Nat) : Nat := rotr 7 x ^^^ rotr 18 x ^^^ (x >>> 3)

/-- SHA-256 small sigma 1. -/
def sSig1 (x : Nat) : Nat := rotr 17 x ^^^ rotr 19 x ^^^ (x >>> 10)

/-- The 64 SHA-256 round constants (FIPS 180-4), in decimal. -/
def shaK : List Nat :=
  [1116352408, 1899447441, 3049323471, 3921009573, 961987163, 1508970993,
   2453635748, 2870763221, 3624381080, 310598401, 607225278, 1426881987,
   1925078388, 2162078206, 2614888103, 3248222580, 3835390401, 4022224774,
   264347078, 604807628, 770255983, 1249150122, 1555081692, 1996064986,
   2554220882, 2821834349, 2952996808, 3210313671, 3336571891, 3584528711,
   113926993, 338241895, 666307205, 773529912, 1294757372, 1396182291,
   1695183700, 1986661051, 2177026350, 2456956037, 2730485921, 2820302411,
   3259730800, 3345764771, 3516065817, 3600352804, 4094571909, 275423344,
   430227734, 506948616, 659060556, 883997877, 958139571, 1322822218,
   1537002063, 1747873779, 1955562222, 2024104815, 2227730452, 2361852424,
   2428436474, 2756734187, 3204031479, 3329325298]

/-- Eight 32-bit words of SHA-256 state. -/
structure Sha8 where
  a : Nat
  b : Nat
  c : Nat
  d : Nat
  e : Nat
  f : Nat
  g : Nat
  h : Nat

/-- The SHA-256 initial hash value. -/
def shaInit : Sha8 :=
  ⟨1779033703, 3144134277, 1013904242, 2773480762,
   1359893119, 2600822924, 528734635, 1541459225⟩

/-- One SHA-256 round on the working variables, given (round constant, schedule word). -/
def shaRound (s : Sha8) (kw : Nat × Nat) : Sha8 :=
  let t1 := w32 (s.h + bSig1 s.e + shaCh s.e s.f s.g + kw.1 + kw.2)
  let t2 := w32 (bSig0 s.a + shaMaj s.a s.b s.c)
  ⟨w32 (t1 + t2), s.a, s.b, s.c, w32 (s.d + t1), s.e, s.f, s.g⟩

/-- Big-endian bytes of a 64-bit length. -/
def be64 (n : Nat) : List Nat :=
  [(n >>> 56) &&& 255, (n >>> 48) &&& 255, (n >>> 40) &&& 255, (n >>> 32) &&& 255,
   (n >>> 24) &&& 255, (n >>> 16) &&& 255, (n >>> 8) &&& 255, n &&& 255]

/-- Big-endian bytes of a 32-bit word. -/
def be32 (n : Nat) : List Nat :=
  [(n >>> 24) &&& 255, (n >>> 16) &&& 255, (n >>> 8) &&& 255, n &&& 255]

/-- SHA-256 padding: append 0x80, zeros to 56 mod 64, then the bit length. -/
def padMessage (msg : List Nat) : List Nat :=
  let padLen := (120 - ((msg.length + 1) % 64)) % 64
  msg ++ [0x80] ++ List.replicate padLen 0 ++ be64 (8 * msg.length)

/-- Split a byte list into 64-byte blocks; the fuel bounds the recursion
and is instantiated with the list length, which suffices. -/
def chunks64 : Nat → List Nat → List (List Nat)
  | 0, _ => []
  | _ + 1, [] => []
  | fuel + 1, c :: cs => (c :: cs).take 64 :: chunks64 fuel ((c :: cs).drop 64)

/-- Assemble big-endian 32-bit words from bytes. -/
def toWords : List Nat → List Nat
  | b0 :: b1 :: b2 :: b3 :: rest =>
      w32 (((b0 % 256 * 256 + b1 % 256) * 256 + b2 % 256) * 256 + b3 % 256) :: toWords rest
  | _ => []

/-- One message-schedule extension step: append word t from words t-2, t-7, t-15, t-16. -/
def scheduleStep (w : List Nat) : List Nat :=
  let l := w.length
  w ++ [w32 (sSig1 (w.getD (l - 2) 0) + w.getD (l - 7) 0 + sSig0 (w.getD (l - 15) 0) + w.getD (l - 16) 0)]

/-- Iterate the schedule extension. -/
def scheduleExtend : Nat → List Nat → List Nat
  | 0, w => w
  | n + 1, w => scheduleExtend n (scheduleStep w)

/-- The full 64-word message schedule from a 16-word block. -/
def schedule (w16 : List Nat) : List Nat := scheduleExtend 48 w16

/-- SHA-256 compression of one 64-byte block into the running hash. -/
def compressBlock (hs : Sha8) (block : List Nat) : Sha8 :=
  let s := (shaK.zip (schedule (toWords block))).foldl shaRound hs
  ⟨w32 (hs.a + s.a), w32 (hs.b + s.b), w32 (hs.c + s.c), w32 (hs.d + s.d),
   w32 (hs.e + s.e), w32 (hs.f + s.f), w32 (hs.g + s.g), w32 (hs.h + s.h)⟩

/-- SHA-256 digest bytes of a message given as a byte list. -/
def sha256bytes (msg : List Nat) : List Nat :=
  let padded := padMessage msg
  let hs := (chunks64 padded.length padded).foldl compressBlock shaInit
  be32 hs.a ++ be32 hs.b ++ be32 hs.c ++ be32 hs.d ++ be32 hs.e ++ be32 hs.f ++ be32 hs.g ++ be32 hs.h

/-- Go encoding/hex digit table (lowercase). -/
def hexChar (n : Nat) : Char := "0123456789abcdef".data.getD n '0'

/-- Hex encoding of a byte list, two lowercase digits per byte. -/
def hexEncodeList : List Nat → List Char
  | [] => []
  | b :: rest => hexChar ((b >>> 4) &&& 15) :: hexChar (b &&& 15) :: hexEncodeList rest

/-- Go hex.EncodeToString. -/
def hexEncode (bytes : List Nat) : String := ⟨hexEncodeList bytes⟩

/-! ## Data model (pkg/manifest/manifest.go) -/

/-- A single file entry of the manifest (struct File). `size` is the Go
int64 field; sizes of modelled files are byte counts, hence non-negative. -/
structure File where
  path : String
  url : String
  size : Int
  sha256 : String
  compression : String
deriving DecidableEq, Repr

/-- The manifest root entity (struct Manifest). Go slices distinguish nil
from empty; a slice field is `none` when nil and `some l` otherwise. -/
structure Manifest where
  artifactID : String
  version : String
  mountPath : String
  prefetch : Option (List String)
  files : Option (List File)
deriving DecidableEq, Repr

/-- Error classification for the `error` results of the Go code, following
the error taxonomy the code's messages express (validation, filesystem
access, hashing). -/
inductive GoError where
  | validation (msg : String)
  | filesystem (msg : String)
  | hash (msg : String)
deriving DecidableEq, Repr

/-- Wrapping with fmt.Errorf("context: %w", err): the category of the
wrapped error is preserved, the message gains context. -/
def wrapErr (ctx : String) : GoError → GoError
  | .validation m => .validation (ctx ++ ": " ++ m)
  | .filesystem m => .filesystem (ctx ++ ": " ++ m)
  | .hash m => .hash (ctx ++ ": " ++ m)

/-! ## Filesystem trees

A scanned directory tree: regular files carry their byte content and
whether opening/reading them succeeds; symlinks are opaque (the walk never
follows them); directories hold named children. `filepath.Walk` visits the
children of each directory in lexicographic name order, so `Generate`
below first sorts every directory level by name. -/

mutual
inductive FS where
  | file (content : List Nat) (readable : Bool) : FS
  | symlink : FS
  | dir (entries : FSEntries) : FS
inductive FSEntries where
  | nil : FSEntries
  | cons (name : String) (fs : FS) (rest : FSEntries) : FSEntries
end

/-- Byte-wise lexicographic order on character lists, as Go's sort.Strings
compares strings. -/
def charListLt : List Char → List Char → Bool
  | [], [] => false
  | [], _ :: _ => true
  | _ :: _, [] => false
  | c :: cs, d :: ds => c.toNat < d.toNat || (c = d && charListLt cs ds)

/-- Lexicographic order on strings. -/
def strLt (a b : String) : Bool := charListLt a.data b.data

/-- Insert a named entry into a name-sorted entry list. -/
def insertEntry (name : String) (fs : FS) : FSEntries → FSEntries
  | .nil => .cons name fs .nil
  | .cons m g rest =>
      if strLt m name then .cons m g (insertEntry name fs rest)
      else .cons name fs (.cons m g rest)

mutual
/-- Recursively sort every directory level by entry name, matching the
lexicographic visiting order of filepath.Walk (readDirNames sorts). -/
def sortFS : FS → FS
  | .file content readable => .file content readable
  | .symlink => .symlink
  | .dir entries => .dir (sortEntries entries)
def sortEntries : FSEntries → FSEntries
  | .nil => .nil
  | .cons n f rest => insertEntry n (sortFS f) (sortEntries rest)
end

/-- os.Stat(...).IsDir(). -/
def isDirFS : FS → Bool
  | .dir _ => true
  | _ => false

/-- The children of the scanned root. -/
def rootEntries : FS → FSEntries
  | .dir es => es
  | _ => .nil

/-- filepath.Rel(dir, path) for a child named `name` of the directory at
relative path `parent` ("" for the root itself), on Linux. -/
def relJoin (parent name : String) : String :=
  if parent = "" then name else parent ++ "/" ++ name

/-- hashFile (manifest.go): open the file and stream its contents through
the SHA-256 hasher, returning the lowercase hex digest; opening or
reading an unreadable file fails. -/
def hashFile (readable : Bool) (content : List Nat) : Except GoError String :=
  if readable then .ok (hexEncode (sha256bytes content)) else .error (.hash "open")

mutual
/-- The body of the filepath.Walk callback in Generate, for one visited
entry, together with Walk's recursion into directories.
Mirrors the source order: directories yield no file record themselves but
are recursed into (the callback returns nil, not SkipDir, so this applies
to dot-directories as well); entries whose base name starts with '.' are
skipped; symlinks are skipped; otherwise the relative path is computed,
the file hashed, and a File record produced. -/
def walkEntry (u parent name : String) : FS → Except GoError (List File)
  | .dir es => walkEntries u (relJoin parent name) es
  | .symlink => .ok []
  | .file content readable =>
      if goStartsWith name "." then .ok []
      else
        let rel := goToSlash (relJoin parent name)
        match hashFile readable content with
        | .error e => .error (wrapErr ("failed to hash file " ++ rel) e)
        | .ok h =>
            .ok [{ path := rel, url := u ++ "/" ++ rel, size := (content.length : Int),
                   sha256 := h, compression := "none" }]
def walkEntries (u parent : String) : FSEntries → Except GoError (List File)
  | .nil => .ok []
  | .cons n f rest =>
      match walkEntry u parent n f with
      | .error e => .error e
      | .ok files1 =>
          match walkEntries u parent rest with
          | .error e => .error e
          | .ok files2 => .ok (files1 ++ files2)
end

/-- normalizePrefetchPaths' loop body: trim whitespace, drop empties,
convert to forward slashes, preserving order. -/
def normalizeStep : List String → List String
  | [] => []
  | p :: rest =>
      let p := goTrimSpace p
      if p = "" then normalizeStep rest
      else goToSlash p :: normalizeStep rest

/-- normalizePrefetchPaths: a Go nil slice is `none`; the function always
returns a non-nil (some) slice. -/
def normalizePrefetchPaths (paths : Option (List String)) : Option (List String) :=
  some (normalizeStep (paths.getD []))

/-- Generate (generate.go): validate inputs, canonicalize the URL prefix,
walk the tree and assemble the manifest. The scanned root is `none` when
os.Stat fails (path missing), else `some` of the tree. -/
def Generate (root : Option FS) (id version urlPre : String)
    (prefetchPaths : Option (List String)) : Except GoError Manifest :=
  if id = "" || version = "" then .error (.validation "id and version are required")
  else
    match root with
    | none => .error (.filesystem "cannot access directory")
    | some fs =>
      if !isDirFS fs then .error (.filesystem "path is not a directory")
      else if !goStartsWith urlPre "http://" && !goStartsWith urlPre "https://" then
        .error (.validation "url-prefix must start with http:// or https://")
      else
        let u := goTrimSuffix urlPre "/"
        match walkEntries u "" (rootEntries (sortFS fs)) with
        | .error e => .error (wrapErr "failed to walk directory" e)
        | .ok files =>
            .ok { artifactID := id, version := version, mountPath := "/mnt/mlmodel",
                  prefetch := normalizePrefetchPaths prefetchPaths, files := some files }

/-! ## Serializer (Marshal / Load, encoding/json)

The serializer is modelled at the level of the JSON document: `Marshal`
produces the JSON value whose textual rendering json.MarshalIndent emits
(fields in struct order, nil slices as null), and `Load` decodes a parsed
JSON value with Go's json.Unmarshal struct semantics (unknown keys
ignored, last duplicate key wins, absent keys and null leave the zero
value, type mismatches fail). -/

/-- A JSON document. Numbers are restricted to integers, which is all the
Manifest schema uses (the int64 `size`). -/
inductive Json where
  | null : Json
  | str (s : String) : Json
  | num (n : Int) : Json
  | arr (elems : List Json) : Json
  | obj (fields : List (String × Json)) : Json
deriving Repr

/-- Object key lookup, scanning all keys so that a later duplicate wins,
as in encoding/json. -/
def lookupField (fields : List (String × Json)) (k : String) : Option Json :=
  fields.foldl (fun acc kv => if kv.1 = k then some kv.2 else acc) none

/-- encodeFile: the JSON object Marshal writes for a File, tags in struct
order. -/
def encodeFile (f : File) : Json :=
  .obj [("path", .str f.path), ("url", .str f.url), ("size", .num f.size),
        ("sha256", .str f.sha256), ("compression", .str f.compression)]

/-- Encoding of a Go string slice: nil marshals as null. -/
def encodeStrSlice : Option (List String) → Json
  | none => .null
  | some l => .arr (l.map .str)

/-- Marshal: the JSON document of a Manifest, tags in struct order. -/
def marshalManifest (m : Manifest) : Json :=
  .obj [("artifact_id", .str m.artifactID), ("version", .str m.version),
        ("mount_path", .str m.mountPath),
        ("prefetch", encodeStrSlice m.prefetch),
        ("files", match m.files with
          | none => .null
          | some l => .arr (l.map encodeFile))]

/-- Unmarshal into a string field: absent or null leaves the zero value. -/
def decodeStrField : Option Json → Except String String
  | none => .ok ""
  | some .null => .ok ""
  | some (.str s) => .ok s
  | some _ => .error "cannot unmarshal into field of type string"

/-- Unmarshal into an int64 field: absent or null leaves zero. -/
def decodeIntField : Option Json → Except String Int
  | none => .ok 0
  | some .null => .ok 0
  | some (.num n) => .ok n
  | some _ => .error "cannot unmarshal into field of type int64"

/-- Unmarshal the elements of a []string value. -/
def decodeStrElems : List Json → Except String (List String)
  | [] => .ok []
  | .str s :: rest => (decodeStrElems rest).map (s :: ·)
  | .null :: rest => (decodeStrElems rest).map ("" :: ·)
  | _ => .error "cannot unmarshal into element of type string"

/-- Unmarshal into a []string field: absent and null give the nil slice. -/
def decodeStrSlice : Option Json → Except String (Option (List String))
  | none => .ok none
  | some .null => .ok none
  | some (.arr l) => (decodeStrElems l).map some
  | some _ => .error "cannot unmarshal into field of type []string"

/-- Unmarshal one File value; a null element leaves the zero File. -/
def decodeFile : Json → Except String File
  | .null => .ok { path := "", url := "", size := 0, sha256 := "", compression := "" }
  | .obj fields => do
      let path ← decodeStrField (lookupField fields "path")
      let url ← decodeStrField (lookupField fields "url")
      let size ← decodeIntField (lookupField fields "size")
      let sha ← decodeStrField (lookupField fields "sha256")
      let comp ← decodeStrField (lookupField fields "compression")
      .ok { path := path, url := url, size := size, sha256 := sha, compression := comp }
  | _ => .error "cannot unmarshal into value of type File"

/-- Unmarshal the elements of a []File value. -/
def decodeFileElems : List Json → Except String (List File)
  | [] => .ok []
  | j :: rest => do
      let f ← decodeFile j
      let fs ← decodeFileElems rest
      .ok (f :: fs)

/-- Unmarshal into a []File field: absent and null give the nil slice. -/
def decodeFileSlice : Option Json → Except String (Option (List File))
  | none => .ok none
  | some .null => .ok none
  | some (.arr l) => (decodeFileElems l).map some
  | some _ => .error "cannot unmarshal into field of type []File"

/-- Load (manifest.go), after the textual parse: json.Unmarshal of a JSON
document into a Manifest. -/
def loadManifest : Json → Except String Manifest
  | .null => .ok { artifactID := "", version := "", mountPath := "", prefetch := none, files := none }
  | .obj fields => do
      let id ← decodeStrField (lookupField fields "artifact_id")
      let ver ← decodeStrField (lookupField fields "version")
      let mp ← decodeStrField (lookupField fields "mount_path")
      let pre ← decodeStrSlice (lookupField fields "prefetch")
      let fs ← decodeFileSlice (lookupField fields "files")
      .ok { artifactID := id, version := ver, mountPath := mp, prefetch := pre, files := fs }
  | _ => .error "cannot unmarshal into value of type Manifest"

/-! ## Spec-side predicates used to state the claims -/

/-- A well-formed filesystem entry name: non-empty and free of the path
separator, as every real directory entry name is. -/
def goodName (n : String) : Bool := !(n = "") && !(n.data.contains '/')

mutual
/-- Well-formedness of a scanned tree: every entry name at every level is
a `goodName`. -/
def wfFS : FS → Bool
  | .file _ _ => true
  | .symlink => true
  | .dir es => wfEntries es
def wfEntries : FSEntries → Bool
  | .nil => true
  | .cons n f rest => goodName n && wfFS f && wfEntries rest
end

mutual
/-- Whether the walk would try and fail to hash some file under this named
entry: an unreadable regular file that is retained (its own base name not
hidden; files under dot-directories are retained, since the walk descends
into them). -/
def hasBadEntry (name : String) : FS → Bool
  | .file _ readable => !goStartsWith name "." && !readable
  | .symlink => false
  | .dir es => hasBadEntries es
def hasBadEntries : FSEntries → Bool
  | .nil => false
  | .cons n f rest => hasBadEntry n f || hasBadEntries rest
end

/-- Whether scanning this root runs into an unreadable retained file. -/
def hasBadFS : FS → Bool
  | .file _ readable => !readable
  | .symlink => false
  | .dir es => hasBadEntries es

/-- Split a character list at '/' into path segments. -/
def splitSegsAux : List Char → List Char → List String
  | [], acc => [⟨acc.reverse⟩]
  | c :: rest, acc =>
      if c = '/' then ⟨acc.reverse⟩ :: splitSegsAux rest []
      else splitSegsAux rest (c :: acc)

/-- The '/'-separated segments of a path. -/
def pathSegs (p : String) : List String := splitSegsAux p.data []

/-- Whether some path segment begins with '.'. -/
def hasDotSeg (p : String) : Bool := (pathSegs p).any (fun s => goStartsWith s ".")

/-- Whether a character list contains two adjacent slashes. -/
def hasAdjSlash : List Char → Bool
  | [] => false
  | [_] => false
  | c1 :: c2 :: rest => (c1 = '/' && c2 = '/') || hasAdjSlash (c2 :: rest)

/-- The part of a URL after its scheme's "//" (the claims' "no double
slashes" reads the URL beyond the scheme separator). -/
def afterScheme (u : String) : String :=
  if goStartsWith u "https://" then ⟨u.data.drop 8⟩
  else if goStartsWith u "http://" then ⟨u.data.drop 7⟩
  else u

/-- A lowercase hexadecimal digit. -/
def isLowerHex (c : Char) : Bool :=
  ('0' ≤ c && c ≤ '9') || ('a' ≤ c && c ≤ 'f')

/-! ## Concrete trees used by witnesses and counterexamples -/

/-- A root with a visible file beside a dot-directory containing a
visible file. -/
def dotDirTree : FS :=
  .dir (.cons ".hidden" (.dir (.cons "inner.txt" (.file [] true) .nil))
    (.cons "b.txt" (.file [116, 101, 115, 116, 10] true) .nil))

/-- A root with a single readable visible file. -/
def oneFileTree : FS :=
  .dir (.cons "f.txt" (.file [104, 105] true) .nil)

/-- A root with one unreadable visible file. -/
def badFileTree : FS :=
  .dir (.cons "bad.bin" (.file [1, 2, 3] false) .nil)

/-- Invariant of the walk's running relative path: empty at the root,
otherwise non-empty with no leading or trailing slash. -/
def parentOk (p : String) : Prop :=
  p = "" ∨ (p.data ≠ [] ∧ p.data.head? ≠ some '/' ∧ p.data.getLast? ≠ some '/')

/-- Shape of every relative path the walk emits: non-empty, no leading or
trailing slash, and of the form parent-join-name for a retained (visible,
well-formed) base name. -/
def emittedPathOk (p : String) : Prop :=
  p.data ≠ [] ∧ p.data.head? ≠ some '/' ∧ p.data.getLast? ≠ some '/' ∧
  ∃ par name, p = relJoin par name ∧ goStartsWith name "." = false ∧ goodName name = true

/-! ## Lemmas: Go string primitives -/

/-- On Linux the path separator is already '/', so ToSlash is the
identity map. -/
theorem goToSlash_id (s : String) : goToSlash s = s := by
  have h : ∀ l : List Char, l.map (fun c => if c = goSeparator then '/' else c) = l := by
    intro l
    induction l with
    | nil => rfl
    | cons c cs ih =>
        simp only [List.map_cons, ih]
        by_cases hc : c = goSeparator
        · simp [hc, goSeparator]
        · simp [hc]
  simp only [goToSlash, h]

/-- The head of a dropWhile result fails the predicate. -/
theorem dropWhile_head_not {p : Char → Bool} :
    ∀ (l : List Char) (a : Char) (l' : List Char), l.dropWhile p = a :: l' → p a = false := by
  intro l
  induction l with
  | nil => intro a l' h; simp [List.dropWhile] at h
  | cons b bl ih =>
      intro a l' h
      rw [List.dropWhile_cons] at h
      by_cases hb : p b = true
      · rw [if_pos hb] at h
        exact ih a l' h
      · rw [if_neg hb] at h
        injection h with h1 _
        subst h1
        simpa using hb

/-- dropWhile is idempotent. -/
theorem dropWhile_idem {p : Char → Bool} (l : List Char) :
    (l.dropWhile p).dropWhile p = l.dropWhile p := by
  cases h : l.dropWhile p with
  | nil => rfl
  | cons a l' =>
      rw [List.dropWhile_cons, dropWhile_head_not l a l' h]
      simp

/-- Trimming from the right preserves a non-space head shape. -/
theorem trimRight_shape (p : Char → Bool) (l : List Char) :
    ((l.dropWhile p).reverse.dropWhile p).reverse = [] ∨
      ∃ a t, ((l.dropWhile p).reverse.dropWhile p).reverse = a :: t ∧ p a = false := by
  cases h : l.dropWhile p with
  | nil => left; simp
  | cons a xs =>
      have ha : p a = false := dropWhile_head_not l a xs h
      have hrev : (a :: xs).reverse = xs.reverse ++ [a] := by simp
      right
      cases hd : xs.reverse.dropWhile p with
      | nil =>
          refine ⟨a, [], ?_, ha⟩
          rw [hrev, List.dropWhile_append, hd]
          simp [List.dropWhile_cons, ha]
      | cons y ys =>
          refine ⟨a, (y :: ys).reverse, ?_, ha⟩
          rw [hrev, List.dropWhile_append, hd]
          simp [List.reverse_append]

/-- strings.TrimSpace is idempotent. -/
theorem goTrimSpace_idem (s : String) : goTrimSpace (goTrimSpace s) = goTrimSpace s := by
  unfold goTrimSpace
  congr 1
  set p := goIsSpace
  set t := s.data.dropWhile p with ht
  have hdata : (String.mk ((t.reverse.dropWhile p).reverse)).data = (t.reverse.dropWhile p).reverse := rfl
  rw [hdata]
  have step1 : ((t.reverse.dropWhile p).reverse).dropWhile p = (t.reverse.dropWhile p).reverse := by
    rcases trimRight_shape p s.data with h | ⟨a, tl, h, ha⟩
    · rw [← ht] at h; rw [h]; rfl
    · rw [← ht] at h; rw [h, List.dropWhile_cons, ha]; simp
  rw [step1, List.reverse_reverse, dropWhile_idem]

/-! ## Claims C8 and C9: normalizePrefetchPaths -/

/-- The loop of normalizePrefetchPaths, as the claim describes it:
trim each element, drop the ones that became empty, convert separators,
in order. -/
theorem normalizeStep_eq (l : List String) :
    normalizeStep l = ((l.map goTrimSpace).filter (fun p => !(p = "" : Bool))).map goToSlash := by
  induction l with
  | nil => rfl
  | cons p rest ih =>
      show (if goTrimSpace p = "" then normalizeStep rest
            else goToSlash (goTrimSpace p) :: normalizeStep rest) = _
      by_cases h : goTrimSpace p = ""
      · simp [h, ih, List.filter_cons]
      · simp [h, ih, List.filter_cons]

/-- C8. normalizePrefetchPaths is total and pure (a Lean function), trims
each element, drops elements that became empty, converts separators to
forward slashes, preserves order of survivors, returns a non-nil slice,
and maps a nil slice to the empty (non-nil) slice; the concrete examples
from the spec hold. -/
theorem claim_C8_normalize_spec :
    (∀ paths : Option (List String),
        normalizePrefetchPaths paths =
          some ((((paths.getD []).map goTrimSpace).filter (fun p => !(p = "" : Bool))).map goToSlash)) ∧
    normalizePrefetchPaths none = some [] ∧
    normalizePrefetchPaths (some [" config.json ", "  tokenizer.json"]) =
      some ["config.json", "tokenizer.json"] := by
  refine ⟨?_, rfl, by decide⟩
  intro paths
  simp [normalizePrefetchPaths, normalizeStep_eq]

/-- C9. normalizePrefetchPaths is idempotent. -/
theorem claim_C9_normalize_idem (paths : Option (List String)) :
    normalizePrefetchPaths (normalizePrefetchPaths paths) = normalizePrefetchPaths paths := by
  simp only [normalizePrefetchPaths, Option.getD_some]
  congr 1
  induction paths.getD [] with
  | nil => rfl
  | cons p rest ih =>
      show normalizeStep (if goTrimSpace p = "" then normalizeStep rest
            else goToSlash (goTrimSpace p) :: normalizeStep rest) =
          (if goTrimSpace p = "" then normalizeStep rest
            else goToSlash (goTrimSpace p) :: normalizeStep rest)
      by_cases h : goTrimSpace p = ""
      · simpa [h] using ih
      · rw [if_neg h, goToSlash_id]
        show (if goTrimSpace (goTrimSpace p) = "" then normalizeStep (normalizeStep rest)
              else goToSlash (goTrimSpace (goTrimSpace p)) :: normalizeStep (normalizeStep rest)) = _
        rw [goTrimSpace_idem, if_neg h, goToSlash_id, ih]

/-! ## Lemmas: prefixes and suffixes of URL strings -/

/-- A prefix of a list is a prefix of any right extension. -/
theorem listStarts_append (pre : List Char) :
    ∀ l t, listStarts pre l = true → listStarts pre (l ++ t) = true := by
  induction pre with
  | nil => intro l t _; rfl
  | cons p ps ih =>
      intro l t h
      cases l with
      | nil => simp [listStarts] at h
      | cons c cs =>
          simp only [listStarts, Bool.and_eq_true] at h ⊢
          exact ⟨h.1, ih cs t h.2⟩

/-- HasPrefix is stable under appending a slash to the string. -/
theorem goStartsWith_concat_slash (u pre : String) (h : goStartsWith u pre = true) :
    goStartsWith (u ++ "/") pre = true := by
  unfold goStartsWith at h ⊢
  rw [String.data_append]
  exact listStarts_append pre.data u.data "/".data h

/-- A string extended with '/' has the '/' suffix. -/
theorem goEndsWith_concat_slash (u : String) : goEndsWith (u ++ "/") "/" = true := by
  unfold goEndsWith listEnds
  rw [String.data_append]
  show listStarts ['/'].reverse ((u.data ++ ['/']).reverse) = true
  rw [List.reverse_append]
  simp [listStarts]

/-- TrimSuffix undoes appending a single slash. -/
theorem goTrimSuffix_concat_slash (u : String) : goTrimSuffix (u ++ "/") "/" = u := by
  unfold goTrimSuffix
  rw [if_pos (goEndsWith_concat_slash u)]
  rw [String.data_append]
  show String.mk ((u.data ++ ['/']).take ((u.data ++ ['/']).length - ("/" : String).data.length)) = u
  have hl : (u.data ++ ['/']).length - ("/" : String).data.length = u.data.length := by
    simp
  rw [hl, List.take_left]

/-- TrimSuffix is the identity when the suffix is absent. -/
theorem goTrimSuffix_of_not_slash (u : String) (h : goEndsWith u "/" = false) :
    goTrimSuffix u "/" = u := by
  simp [goTrimSuffix, h]

/-- The single-character suffix test reads the last character. -/
theorem goEndsWith_slash_iff (s : String) :
    goEndsWith s "/" = true ↔ s.data.getLast? = some '/' := by
  unfold goEndsWith listEnds
  show listStarts ['/'] s.data.reverse = true ↔ _
  cases hr : s.data.reverse with
  | nil =>
      have : s.data.getLast? = none := by
        rw [← List.head?_reverse, hr]; rfl
      simp [listStarts, this]
  | cons d ds =>
      have : s.data.getLast? = some d := by
        rw [← List.head?_reverse, hr]; rfl
      simp [listStarts, this, eq_comm]

/-! ## Claim C2: validation order -/

/-- Shared helper: the three failing validation cases of Generate, in
their source order. -/
theorem generate_error_cases (root : Option FS) (id version urlPre : String)
    (pf : Option (List String)) :
    ((id = "" ∨ version = "") →
      Generate root id version urlPre pf = .error (.validation "id and version are required")) ∧
    (id ≠ "" → version ≠ "" → root = none →
      Generate root id version urlPre pf = .error (.filesystem "cannot access directory")) ∧
    (∀ fs, id ≠ "" → version ≠ "" → root = some fs → isDirFS fs = false →
      Generate root id version urlPre pf = .error (.filesystem "path is not a directory")) ∧
    (∀ fs, id ≠ "" → version ≠ "" → root = some fs → isDirFS fs = true →
      goStartsWith urlPre "http://" = false → goStartsWith urlPre "https://" = false →
      Generate root id version urlPre pf =
        .error (.validation "url-prefix must start with http:// or https://")) := by
  refine ⟨?_, ?_, ?_, ?_⟩
  · rintro (h | h) <;> simp [Generate, h]
  · intro h1 h2 h3
    subst h3
    simp [Generate, h1, h2]
  · intro fs h1 h2 h3 hdir
    subst h3
    simp [Generate, h1, h2, hdir]
  · intro fs h1 h2 h3 hdir hp1 hp2
    subst h3
    simp [Generate, h1, h2, hdir, hp1, hp2]

/-- C2. Generate validates fail-fast, first violation wins: empty id or
version gives the validation error; otherwise a missing or non-directory
root gives the filesystem error; otherwise a urlPrefix not starting with
http:// or https:// gives the validation error. Each failing case
returns an error and no Manifest. -/
theorem claim_C2_validation_order (root : Option FS) (id version urlPre : String)
    (pf : Option (List String)) :
    ((id = "" ∨ version = "") →
      Generate root id version urlPre pf = .error (.validation "id and version are required")) ∧
    (id ≠ "" → version ≠ "" → root = none →
      Generate root id version urlPre pf = .error (.filesystem "cannot access directory")) ∧
    (∀ fs, id ≠ "" → version ≠ "" → root = some fs → isDirFS fs = false →
      Generate root id version urlPre pf = .error (.filesystem "path is not a directory")) ∧
    (∀ fs, id ≠ "" → version ≠ "" → root = some fs → isDirFS fs = true →
      goStartsWith urlPre "http://" = false → goStartsWith urlPre "https://" = false →
      Generate root id version urlPre pf =
        .error (.validation "url-prefix must start with http:// or https://")) :=
  generate_error_cases root id version urlPre pf

/-- Witness for C2: each validation failure at a concrete input. -/
theorem claim_C2_witness :
    Generate (some oneFileTree) "" "v1" "https://e.com" none =
      .error (.validation "id and version are required") ∧
    Generate none "id" "v1" "https://e.com" none =
      .error (.filesystem "cannot access directory") ∧
    Generate (some .symlink) "id" "v1" "https://e.com" none =
      .error (.filesystem "path is not a directory") ∧
    Generate (some oneFileTree) "id" "v1" "s3://bucket/path" none =
      .error (.validation "url-prefix must start with http:// or https://") := by
  refine ⟨?_, ?_, ?_, ?_⟩
  · exact (claim_C2_validation_order (some oneFileTree) "" "v1" "https://e.com" none).1 (Or.inl rfl)
  · exact (claim_C2_validation_order none "id" "v1" "https://e.com" none).2.1
      (by decide) (by decide) rfl
  · exact (claim_C2_validation_order (some .symlink) "id" "v1" "https://e.com" none).2.2.1
      .symlink (by decide) (by decide) rfl (by decide)
  · exact (claim_C2_validation_order (some oneFileTree) "id" "v1" "s3://bucket/path" none).2.2.2
      oneFileTree (by decide) (by decide) rfl (by decide) (by decide) (by decide)

/-! ## Lemmas: relative paths built by the walk -/

/-- A string is empty iff its character list is. -/
theorem string_empty_iff (s : String) : s = "" ↔ s.data = [] := by
  constructor
  · intro h
    rw [h]
  · intro h
    cases s
    simp only at h
    rw [h]

/-- A well-formed name is non-empty and has no slash at either end. -/
theorem goodName_props (n : String) (h : goodName n = true) :
    n.data ≠ [] ∧ n.data.head? ≠ some '/' ∧ n.data.getLast? ≠ some '/' := by
  unfold goodName at h
  rw [Bool.and_eq_true] at h
  obtain ⟨h1, h2⟩ := h
  have hne : n ≠ "" := by simpa using h1
  have hnd : n.data ≠ [] := fun hd => hne ((string_empty_iff n).mpr hd)
  have hnc : ('/' : Char) ∉ n.data := by simpa using h2
  refine ⟨hnd, ?_, ?_⟩
  · intro hh
    exact hnc (List.mem_of_mem_head? (Option.mem_def.mpr hh))
  · intro hh
    have : n.data.reverse.head? = some '/' := by rw [List.head?_reverse, hh]
    have hm : ('/' : Char) ∈ n.data.reverse := List.mem_of_mem_head? (Option.mem_def.mpr this)
    exact hnc (List.mem_reverse.mp hm)

/-- Joining a well-formed name onto a well-formed parent path yields a
non-empty path with no slash at either end, and the invariant persists. -/
theorem relJoin_props (parent name : String) (hp : parentOk parent) (hn : goodName name = true) :
    (relJoin parent name).data ≠ [] ∧ (relJoin parent name).data.head? ≠ some '/' ∧
    (relJoin parent name).data.getLast? ≠ some '/' ∧ parentOk (relJoin parent name) := by
  obtain ⟨h1, h2, h3⟩ := goodName_props name hn
  rcases hp with hp | ⟨hp1, hp2, hp3⟩
  · subst hp
    unfold relJoin
    rw [if_pos rfl]
    exact ⟨h1, h2, h3, Or.inr ⟨h1, h2, h3⟩⟩
  · have hpne : parent ≠ "" := fun he => hp1 ((string_empty_iff parent).mp he)
    unfold relJoin
    rw [if_neg hpne]
    have hdata : (parent ++ "/" ++ name).data = (parent.data ++ ['/']) ++ name.data := by
      rw [String.data_append, String.data_append]
    have ha : (parent ++ "/" ++ name).data ≠ [] := by
      rw [hdata]
      simp
    have hb : (parent ++ "/" ++ name).data.head? ≠ some '/' := by
      rw [hdata, List.head?_append_of_ne_nil _ (by simp), List.head?_append_of_ne_nil _ hp1]
      exact hp2
    have hc : (parent ++ "/" ++ name).data.getLast? ≠ some '/' := by
      rw [hdata, List.getLast?_append_of_ne_nil _ h1]
      exact h3
    exact ⟨ha, hb, hc, Or.inr ⟨ha, hb, hc⟩⟩

/-! ## Lemmas: sorting directory listings preserves the claim predicates -/

/-- Well-formedness across an insertion. -/
theorem wfEntries_insert (n : String) (f : FS) (es : FSEntries) :
    wfEntries (insertEntry n f es) = (goodName n && wfFS f && wfEntries es) := by
  refine @FSEntries.rec (fun _ => True)
    (fun es => wfEntries (insertEntry n f es) = (goodName n && wfFS f && wfEntries es))
    ?_ ?_ ?_ ?_ ?_ es
  · intro _ _; trivial
  · trivial
  · intro _ _; trivial
  · rfl
  · intro m g rest _ ih
    show wfEntries (if strLt m n then _ else _) = _
    split
    · simp only [wfEntries, ih]
      cases goodName n <;> cases wfFS f <;> cases goodName m <;> cases wfFS g <;> simp
    · rfl

/-- Sorting a tree preserves well-formedness. -/
theorem wf_sortFS (fs : FS) : wfFS (sortFS fs) = wfFS fs := by
  refine @FS.rec (fun fs => wfFS (sortFS fs) = wfFS fs)
    (fun es => wfEntries (sortEntries es) = wfEntries es) ?_ ?_ ?_ ?_ ?_ fs
  · intro content readable; rfl
  · rfl
  · intro entries ih
    simp only [sortFS, wfFS, ih]
  · rfl
  · intro name f rest ih1 ih2
    simp only [sortEntries, wfEntries_insert, wfEntries, ih1, ih2]

/-- Sorting the entries of a directory preserves well-formedness. -/
theorem wf_sortEntries (es : FSEntries) : wfEntries (sortEntries es) = wfEntries es := by
  refine @FSEntries.rec (fun fs => wfFS (sortFS fs) = wfFS fs)
    (fun es => wfEntries (sortEntries es) = wfEntries es) ?_ ?_ ?_ ?_ ?_ es
  · intro content readable; rfl
  · rfl
  · intro entries ih
    simp only [sortFS, wfFS, ih]
  · rfl
  · intro name f rest ih1 ih2
    simp only [sortEntries, wfEntries_insert, wfEntries, ih1, ih2]

/-- Unreadable-retained-file detection across an insertion. -/
theorem hasBadEntries_insert (n : String) (f : FS) (es : FSEntries) :
    hasBadEntries (insertEntry n f es) = (hasBadEntry n f || hasBadEntries es) := by
  refine @FSEntries.rec (fun _ => True)
    (fun es => hasBadEntries (insertEntry n f es) = (hasBadEntry n f || hasBadEntries es))
    ?_ ?_ ?_ ?_ ?_ es
  · intro _ _; trivial
  · trivial
  · intro _ _; trivial
  · rfl
  · intro m g rest _ ih
    show hasBadEntries (if strLt m n then _ else _) = _
    split
    · simp only [hasBadEntries, ih]
      cases hasBadEntry n f <;> cases hasBadEntry m g <;> simp
    · rfl

/-- Sorting the entries of a directory preserves the presence of an
unreadable retained file. -/
theorem hasBad_sortEntries (es : FSEntries) :
    hasBadEntries (sortEntries es) = hasBadEntries es := by
  refine @FSEntries.rec (fun fs => ∀ n, hasBadEntry n (sortFS fs) = hasBadEntry n fs)
    (fun es => hasBadEntries (sortEntries es) = hasBadEntries es) ?_ ?_ ?_ ?_ ?_ es
  · intro content readable n; rfl
  · intro n; rfl
  · intro entries ih n
    simp only [sortFS, hasBadEntry, ih]
  · rfl
  · intro name f rest ih1 ih2
    simp only [sortEntries, hasBadEntries_insert, hasBadEntries, ih1, ih2]

/-! ## Lemmas: the directory walk -/

/-- Every file record the walk emits has URL equal to the canonical
prefix, a slash, and its own relative path. -/
theorem walkEntries_url (es : FSEntries) :
    ∀ u parent files f, walkEntries u parent es = .ok files → f ∈ files →
      f.url = u ++ "/" ++ f.path := by
  refine @FSEntries.rec
    (fun fs => ∀ u parent name files f, walkEntry u parent name fs = .ok files → f ∈ files →
      f.url = u ++ "/" ++ f.path)
    (fun es => ∀ u parent files f, walkEntries u parent es = .ok files → f ∈ files →
      f.url = u ++ "/" ++ f.path)
    ?_ ?_ ?_ ?_ ?_ es
  · intro content readable u parent name files f h hm
    simp only [walkEntry] at h
    split at h
    · injection h with h
      subst h
      cases hm
    · cases hh : hashFile readable content with
      | error e => rw [hh] at h; simp at h
      | ok hsh =>
          rw [hh] at h
          simp only at h
          injection h with h
          subst h
          rw [List.mem_singleton] at hm
          subst hm
          rfl
  · intro u parent name files f h hm
    simp only [walkEntry] at h
    injection h with h
    subst h
    cases hm
  · intro entries ih u parent name files f h hm
    simp only [walkEntry] at h
    exact ih u (relJoin parent name) files f h hm
  · intro u parent files f h hm
    simp only [walkEntries] at h
    injection h with h
    subst h
    cases hm
  · intro name fs rest ih1 ih2 u parent files f h hm
    simp only [walkEntries] at h
    cases hw : walkEntry u parent name fs with
    | error e => rw [hw] at h; simp at h
    | ok l1 =>
        rw [hw] at h
        cases hr : walkEntries u parent rest with
        | error e => rw [hr] at h; simp at h
        | ok l2 =>
            rw [hr] at h
            simp only at h
            injection h with h
            subst h
            rcases List.mem_append.mp hm with h1 | h2
            · exact ih1 u parent name l1 f hw h1
            · exact ih2 u parent l2 f hr h2

/-- Every relative path the walk emits over a well-formed tree is
non-empty, slash-free at both ends, and joins a visible well-formed base
name onto its parent path. -/
theorem walkEntries_path_shape (es : FSEntries) :
    ∀ u parent files f, wfEntries es = true → parentOk parent →
      walkEntries u parent es = .ok files → f ∈ files → emittedPathOk f.path := by
  refine @FSEntries.rec
    (fun fs => ∀ u parent name files f, wfFS fs = true → parentOk parent → goodName name = true →
      walkEntry u parent name fs = .ok files → f ∈ files → emittedPathOk f.path)
    (fun es => ∀ u parent files f, wfEntries es = true → parentOk parent →
      walkEntries u parent es = .ok files → f ∈ files → emittedPathOk f.path)
    ?_ ?_ ?_ ?_ ?_ es
  · intro content readable u parent name files f _ hp hn h hm
    simp only [walkEntry] at h
    split at h
    · injection h with h
      subst h
      cases hm
    · rename_i hhid
      cases hh : hashFile readable content with
      | error e => rw [hh] at h; simp at h
      | ok hsh =>
          rw [hh] at h
          simp only at h
          injection h with h
          subst h
          rw [List.mem_singleton] at hm
          subst hm
          obtain ⟨h1, h2, h3, _⟩ := relJoin_props parent name hp hn
          refine ⟨?_, ?_, ?_, parent, name, ?_, ?_, hn⟩
          · show (goToSlash (relJoin parent name)).data ≠ []
            rw [goToSlash_id]
            exact h1
          · show (goToSlash (relJoin parent name)).data.head? ≠ some '/'
            rw [goToSlash_id]
            exact h2
          · show (goToSlash (relJoin parent name)).data.getLast? ≠ some '/'
            rw [goToSlash_id]
            exact h3
          · show goToSlash (relJoin parent name) = relJoin parent name
            exact goToSlash_id _
          · simpa using hhid
  · intro u parent name files f _ _ _ h hm
    simp only [walkEntry] at h
    injection h with h
    subst h
    cases hm
  · intro entries ih u parent name files f hwf hp hn h hm
    simp only [walkEntry] at h
    simp only [wfFS] at hwf
    exact ih u (relJoin parent name) files f hwf (relJoin_props parent name hp hn).2.2.2 h hm
  · intro u parent files f _ _ h hm
    simp only [walkEntries] at h
    injection h with h
    subst h
    cases hm
  · intro name fs rest ih1 ih2 u parent files f hwf hp h hm
    simp only [wfEntries, Bool.and_eq_true] at hwf
    obtain ⟨⟨hgn, hwf1⟩, hwf2⟩ := hwf
    simp only [walkEntries] at h
    cases hw : walkEntry u parent name fs with
    | error e => rw [hw] at h; simp at h
    | ok l1 =>
        rw [hw] at h
        cases hr : walkEntries u parent rest with
        | error e => rw [hr] at h; simp at h
        | ok l2 =>
            rw [hr] at h
            simp only at h
            injection h with h
            subst h
            rcases List.mem_append.mp hm with h1 | h2
            · exact ih1 u parent name l1 f hwf1 hp hgn hw h1
            · exact ih2 u parent l2 f hwf2 hp hr h2

/-- If some retained file under the entries is unreadable, the walk
fails. -/
theorem walkEntries_error (es : FSEntries) :
    hasBadEntries es = true → ∀ u parent, ∃ e, walkEntries u parent es = .error e := by
  refine @FSEntries.rec
    (fun fs => ∀ name, hasBadEntry name fs = true → ∀ u parent,
      ∃ e, walkEntry u parent name fs = .error e)
    (fun es => hasBadEntries es = true → ∀ u parent,
      ∃ e, walkEntries u parent es = .error e)
    ?_ ?_ ?_ ?_ ?_ es
  · intro content readable name h u parent
    simp only [hasBadEntry, Bool.and_eq_true, Bool.not_eq_true'] at h
    obtain ⟨hhid, hr⟩ := h
    refine ⟨wrapErr ("failed to hash file " ++ goToSlash (relJoin parent name)) (.hash "open"), ?_⟩
    simp [walkEntry, hhid, hashFile, hr]
  · intro name h u parent
    simp [hasBadEntry] at h
  · intro entries ih name h u parent
    simp only [hasBadEntry] at h
    obtain ⟨e, he⟩ := ih h u (relJoin parent name)
    exact ⟨e, by simp [walkEntry, he]⟩
  · intro h u parent
    simp [hasBadEntries] at h
  · intro name fs rest ih1 ih2 h u parent
    simp only [hasBadEntries, Bool.or_eq_true] at h
    rcases h with hb | hb
    · obtain ⟨e, he⟩ := ih1 name hb u parent
      exact ⟨e, by simp [walkEntries, he]⟩
    · cases hw : walkEntry u parent name fs with
      | error e => exact ⟨e, by simp [walkEntries, hw]⟩
      | ok l1 =>
          obtain ⟨e, he⟩ := ih2 hb u parent
          exact ⟨e, by simp [walkEntries, hw, he]⟩

/-- Inversion of a successful Generate run: the root was a directory, the
walk of its sorted entries succeeded, and the manifest is exactly the
assembled record. -/
theorem generate_ok_inv (root : Option FS) (id version urlPre : String)
    (pf : Option (List String)) (m : Manifest)
    (h : Generate root id version urlPre pf = .ok m) :
    ∃ fs files, root = some fs ∧ isDirFS fs = true ∧
      walkEntries (goTrimSuffix urlPre "/") "" (rootEntries (sortFS fs)) = .ok files ∧
      m = { artifactID := id, version := version, mountPath := "/mnt/mlmodel",
            prefetch := normalizePrefetchPaths pf, files := some files } := by
  simp only [Generate] at h
  split at h
  · simp at h
  · cases root with
    | none => simp at h
    | some fs =>
        simp only at h
        split at h
        · simp at h
        · split at h
          · simp at h
          · rename_i hdir _
            cases hw : walkEntries (goTrimSuffix urlPre "/") "" (rootEntries (sortFS fs)) with
            | error e => rw [hw] at h; simp at h
            | ok files =>
                rw [hw] at h
                simp only at h
                injection h with h
                exact ⟨fs, files, rfl, by simpa using hdir, hw, h.symm⟩

/-! ## Claim C1: hidden-entry filtering -/

set_option maxRecDepth 100000 in
/-- C1 counterexample. The claim says a dot-directory's entire subtree is
excluded and no File.Path has a segment beginning with '.'; but the walk
callback returns nil (not SkipDir) for directories before the hidden-name
check, so Walk descends into `.hidden` and retains
`.hidden/inner.txt`, whose first segment begins with '.'. -/
theorem claim_C1_counterexample :
    (Generate (some dotDirTree) "id" "v1" "https://e.com" none).map
      (fun m => m.files.map (List.map File.path)) = .ok (some [".hidden/inner.txt", "b.txt"]) ∧
    hasDotSeg ".hidden/inner.txt" = true := by
  refine ⟨?_, rfl⟩
  rfl

/-- C1 (amended). Entries that are regular files (or symlinks) with base
name starting '.' are skipped, but dot-directories are traversed rather
than excluded, so a File.Path may contain a dot segment; what holds is
that every File.Path is its parent path joined with the file's own base
name, and that base name is well-formed and never starts with '.'. -/
theorem claim_C1_amended_hidden (fs : FS) (id version urlPre : String)
    (pf : Option (List String)) (m : Manifest) (files : List File) (f : File)
    (hwf : wfFS fs = true) (h : Generate (some fs) id version urlPre pf = .ok m)
    (hfiles : m.files = some files) (hmem : f ∈ files) :
    ∃ par name, f.path = relJoin par name ∧ goStartsWith name "." = false ∧
      goodName name = true := by
  obtain ⟨fs', files', hroot, hdir, hw, hm⟩ := generate_ok_inv (some fs) id version urlPre pf m h
  injection hroot with hroot
  subst hroot
  subst hm
  simp only at hfiles
  injection hfiles with hfiles
  rw [← hfiles] at hmem
  cases fs with
  | file c r => simp [isDirFS] at hdir
  | symlink => simp [isDirFS] at hdir
  | dir es =>
      have hwfe : wfEntries (sortEntries es) = true := by
        rw [wf_sortEntries]
        simpa [wfFS] using hwf
      have hw' : walkEntries (goTrimSuffix urlPre "/") "" (sortEntries es) = .ok files' := by
        simpa [sortFS, rootEntries] using hw
      obtain ⟨_, _, _, par, name, hpath, hhid, hgn⟩ :=
        walkEntries_path_shape (sortEntries es) (goTrimSuffix urlPre "/") "" files' f
          hwfe (Or.inl rfl) hw' hmem
      exact ⟨par, name, hpath, hhid, hgn⟩

set_option maxRecDepth 100000 in
/-- Witness for the amended C1 at a concrete generation run. -/
theorem claim_C1_witness :
    ∃ par name,
      (File.mk "f.txt" "https://e.com/f.txt" 2
          "8f434346648f6b96df89dda901c5176b10a6d83961dd3c1ac88b59b2dc327aa4" "none").path
        = relJoin par name ∧ goStartsWith name "." = false ∧ goodName name = true :=
  claim_C1_amended_hidden oneFileTree "id" "v1" "https://e.com" none
    { artifactID := "id", version := "v1", mountPath := "/mnt/mlmodel",
      prefetch := some [],
      files := some [File.mk "f.txt" "https://e.com/f.txt" 2
        "8f434346648f6b96df89dda901c5176b10a6d83961dd3c1ac88b59b2dc327aa4" "none"] }
    [File.mk "f.txt" "https://e.com/f.txt" 2
      "8f434346648f6b96df89dda901c5176b10a6d83961dd3c1ac88b59b2dc327aa4" "none"]
    (File.mk "f.txt" "https://e.com/f.txt" 2
      "8f434346648f6b96df89dda901c5176b10a6d83961dd3c1ac88b59b2dc327aa4" "none")
    (by decide) (by rfl) rfl (List.mem_singleton.mpr rfl)

/-! ## Claim C3: URL slashes -/

set_option maxRecDepth 100000 in
/-- C3 counterexample. The claim asserts no double slashes for every
accepted urlPrefix, including ones ending in several slashes; but
TrimSuffix strips only one trailing slash, so the prefix
"https://e.com//" yields URL "https://e.com//f.txt", which has adjacent
slashes beyond the scheme. -/
theorem claim_C3_counterexample :
    (Generate (some oneFileTree) "id" "v1" "https://e.com//" none).map
      (fun m => (m.files.getD []).map (fun f => (f.url, hasAdjSlash (afterScheme f.url).data)))
    = .ok [("https://e.com//f.txt", true)] := rfl

/-- C3 (amended). For a urlPrefix whose canonical form (one trailing
slash stripped) does not itself end in '/', every File.URL is the
canonical prefix, one slash, and the Path, where the Path does not begin
with a slash — so the joint introduces no double slash — and the URL has
no trailing slash. Prefixes ending in two or more slashes do produce a
double slash, as the counterexample shows. -/
theorem claim_C3_amended_single_slash (fs : FS) (id version urlPre : String)
    (pf : Option (List String)) (m : Manifest) (files : List File) (f : File)
    (hwf : wfFS fs = true) (hone : goEndsWith (goTrimSuffix urlPre "/") "/" = false)
    (h : Generate (some fs) id version urlPre pf = .ok m)
    (hfiles : m.files = some files) (hmem : f ∈ files) :
    f.url = goTrimSuffix urlPre "/" ++ "/" ++ f.path ∧
    (goTrimSuffix urlPre "/").data.getLast? ≠ some '/' ∧
    f.path.data.head? ≠ some '/' ∧ goEndsWith f.url "/" = false := by
  obtain ⟨fs', files', hroot, hdir, hw, hm⟩ := generate_ok_inv (some fs) id version urlPre pf m h
  injection hroot with hroot
  subst hroot
  subst hm
  simp only at hfiles
  injection hfiles with hfiles
  rw [← hfiles] at hmem
  have hurl : f.url = goTrimSuffix urlPre "/" ++ "/" ++ f.path :=
    walkEntries_url _ _ _ _ _ hw hmem
  cases fs with
  | file c r => simp [isDirFS] at hdir
  | symlink => simp [isDirFS] at hdir
  | dir es =>
      have hwfe : wfEntries (sortEntries es) = true := by
        rw [wf_sortEntries]
        simpa [wfFS] using hwf
      have hw' : walkEntries (goTrimSuffix urlPre "/") "" (sortEntries es) = .ok files' := by
        simpa [sortFS, rootEntries] using hw
      obtain ⟨hne, hhead, hlast, _⟩ :=
        walkEntries_path_shape (sortEntries es) (goTrimSuffix urlPre "/") "" files' f
          hwfe (Or.inl rfl) hw' hmem
      refine ⟨hurl, ?_, hhead, ?_⟩
      · intro hc
        have h2 := (goEndsWith_slash_iff (goTrimSuffix urlPre "/")).mpr hc
        rw [hone] at h2
        simp at h2
      cases hgw : goEndsWith f.url "/" with
      | false => rfl
      | true =>
          exfalso
          rw [goEndsWith_slash_iff, hurl] at hgw
          rw [show (goTrimSuffix urlPre "/" ++ "/" ++ f.path).data
                = ((goTrimSuffix urlPre "/").data ++ ['/']) ++ f.path.data from by
              rw [String.data_append, String.data_append]] at hgw
          rw [List.getLast?_append_of_ne_nil _ hne] at hgw
          exact hlast hgw

set_option maxRecDepth 100000 in
/-- Witness for the amended C3 at a concrete generation run. -/
theorem claim_C3_witness :
    (File.mk "f.txt" "https://e.com/f.txt" 2
        "8f434346648f6b96df89dda901c5176b10a6d83961dd3c1ac88b59b2dc327aa4" "none").url
      = goTrimSuffix "https://e.com" "/" ++ "/"
          ++ (File.mk "f.txt" "https://e.com/f.txt" 2
            "8f434346648f6b96df89dda901c5176b10a6d83961dd3c1ac88b59b2dc327aa4" "none").path ∧
    (goTrimSuffix "https://e.com" "/").data.getLast? ≠ some '/' ∧
    (File.mk "f.txt" "https://e.com/f.txt" 2
        "8f434346648f6b96df89dda901c5176b10a6d83961dd3c1ac88b59b2dc327aa4" "none").path.data.head?
      ≠ some '/' ∧
    goEndsWith (File.mk "f.txt" "https://e.com/f.txt" 2
        "8f434346648f6b96df89dda901c5176b10a6d83961dd3c1ac88b59b2dc327aa4" "none").url "/"
      = false :=
  claim_C3_amended_single_slash oneFileTree "id" "v1" "https://e.com" none
    { artifactID := "id", version := "v1", mountPath := "/mnt/mlmodel",
      prefetch := some [],
      files := some [File.mk "f.txt" "https://e.com/f.txt" 2
        "8f434346648f6b96df89dda901c5176b10a6d83961dd3c1ac88b59b2dc327aa4" "none"] }
    [File.mk "f.txt" "https://e.com/f.txt" 2
      "8f434346648f6b96df89dda901c5176b10a6d83961dd3c1ac88b59b2dc327aa4" "none"]
    (File.mk "f.txt" "https://e.com/f.txt" 2
      "8f434346648f6b96df89dda901c5176b10a6d83961dd3c1ac88b59b2dc327aa4" "none")
    (by decide) rfl (by rfl) rfl (List.mem_singleton.mpr rfl)

/-! ## Claim C4: URL equation and trailing-slash insensitivity -/

/-- C4. Every retained File's URL is the canonicalized urlPrefix
(one trailing slash stripped) ++ "/" ++ its Path; and for an accepted
urlPrefix with no trailing slash, generating with the prefix plus a
single trailing slash returns the identical result. -/
theorem claim_C4_url_equation (root : Option FS) (id version u : String)
    (pf : Option (List String)) :
    (∀ m files f, Generate root id version u pf = .ok m → m.files = some files → f ∈ files →
      f.url = goTrimSuffix u "/" ++ "/" ++ f.path) ∧
    ((goStartsWith u "http://" = true ∨ goStartsWith u "https://" = true) →
      goEndsWith u "/" = false →
      Generate root id version (u ++ "/") pf = Generate root id version u pf) := by
  constructor
  · intro m files f h hfiles hmem
    obtain ⟨fs, files', hroot, hdir, hw, hm⟩ := generate_ok_inv root id version u pf m h
    subst hm
    simp only at hfiles
    injection hfiles with hfiles
    rw [← hfiles] at hmem
    exact walkEntries_url _ _ _ _ _ hw hmem
  · intro hv hnoslash
    have ht1 : goTrimSuffix (u ++ "/") "/" = u := goTrimSuffix_concat_slash u
    have ht2 : goTrimSuffix u "/" = u := goTrimSuffix_of_not_slash u hnoslash
    rcases hv with h | h
    · have h2 := goStartsWith_concat_slash u "http://" h
      simp [Generate, h, h2, ht1, ht2]
    · have h2 := goStartsWith_concat_slash u "https://" h
      simp [Generate, h, h2, ht1, ht2]

set_option maxRecDepth 100000 in
/-- Witness for C4 at a concrete generation run. -/
theorem claim_C4_witness :
    (File.mk "f.txt" "https://e.com/f.txt" 2
        "8f434346648f6b96df89dda901c5176b10a6d83961dd3c1ac88b59b2dc327aa4" "none").url
      = goTrimSuffix "https://e.com" "/" ++ "/"
          ++ (File.mk "f.txt" "https://e.com/f.txt" 2
            "8f434346648f6b96df89dda901c5176b10a6d83961dd3c1ac88b59b2dc327aa4" "none").path ∧
    Generate (some oneFileTree) "id" "v1" ("https://e.com" ++ "/") none
      = Generate (some oneFileTree) "id" "v1" "https://e.com" none := by
  constructor
  · exact (claim_C4_url_equation (some oneFileTree) "id" "v1" "https://e.com" none).1
      { artifactID := "id", version := "v1", mountPath := "/mnt/mlmodel",
        prefetch := some [],
        files := some [File.mk "f.txt" "https://e.com/f.txt" 2
          "8f434346648f6b96df89dda901c5176b10a6d83961dd3c1ac88b59b2dc327aa4" "none"] }
      [File.mk "f.txt" "https://e.com/f.txt" 2
        "8f434346648f6b96df89dda901c5176b10a6d83961dd3c1ac88b59b2dc327aa4" "none"]
      (File.mk "f.txt" "https://e.com/f.txt" 2
        "8f434346648f6b96df89dda901c5176b10a6d83961dd3c1ac88b59b2dc327aa4" "none")
      (by rfl) rfl (List.mem_singleton.mpr rfl)
  · exact (claim_C4_url_equation (some oneFileTree) "id" "v1" "https://e.com" none).2
      (Or.inr rfl) rfl

/-! ## Claim C7: all-or-nothing generation -/

/-- C7. If scanning runs into an unreadable retained file anywhere in the
tree, Generate returns an error and never a manifest: there is no
partial-success mode. -/
theorem claim_C7_all_or_nothing (fs : FS) (id version urlPre : String)
    (pf : Option (List String)) (hbad : hasBadFS fs = true) :
    (∃ e, Generate (some fs) id version urlPre pf = .error e) ∧
    ∀ m, Generate (some fs) id version urlPre pf ≠ .ok m := by
  have herr : ∃ e, Generate (some fs) id version urlPre pf = .error e := by
    by_cases h1 : id = "" ∨ version = ""
    · exact ⟨_, (generate_error_cases (some fs) id version urlPre pf).1 h1⟩
    · push_neg at h1
      obtain ⟨hid, hver⟩ := h1
      cases hfs : isDirFS fs with
      | false =>
          exact ⟨_, (generate_error_cases (some fs) id version urlPre pf).2.2.1
            fs hid hver rfl hfs⟩
      | true =>
          cases hu : (!goStartsWith urlPre "http://" && !goStartsWith urlPre "https://") with
          | true =>
              rw [Bool.and_eq_true, Bool.not_eq_true', Bool.not_eq_true'] at hu
              exact ⟨_, (generate_error_cases (some fs) id version urlPre pf).2.2.2
                fs hid hver rfl hfs hu.1 hu.2⟩
          | false =>
              cases fs with
              | file c r => simp [isDirFS] at hfs
              | symlink => simp [isDirFS] at hfs
              | dir es =>
                  have hbe : hasBadEntries (sortEntries es) = true := by
                    rw [hasBad_sortEntries]
                    simpa [hasBadFS] using hbad
                  obtain ⟨e, he⟩ := walkEntries_error (sortEntries es) hbe
                    (goTrimSuffix urlPre "/") ""
                  refine ⟨wrapErr "failed to walk directory" e, ?_⟩
                  have hw' : walkEntries (goTrimSuffix urlPre "/") ""
                      (rootEntries (sortFS (.dir es))) = .error e := by
                    simpa [sortFS, rootEntries] using he
                  simp [Generate, hid, hver, hu, hw', isDirFS]
  obtain ⟨e, he⟩ := herr
  refine ⟨⟨e, he⟩, fun m hm => ?_⟩
  rw [he] at hm
  simp at hm

/-- Witness for C7: an unreadable file aborts a concrete generation. -/
theorem claim_C7_witness :
    (∃ e, Generate (some badFileTree) "id" "v1" "https://e.com" none = .error e) ∧
    ∀ m, Generate (some badFileTree) "id" "v1" "https://e.com" none ≠ .ok m :=
  claim_C7_all_or_nothing badFileTree "id" "v1" "https://e.com" none (by decide)

/-! ## Claim C6: hashFile -/

/-- The digest always has 32 bytes. -/
theorem sha256bytes_length (msg : List Nat) : (sha256bytes msg).length = 32 := by
  simp [sha256bytes, be32]

/-- Hex encoding doubles the length. -/
theorem hexEncodeList_length (l : List Nat) : (hexEncodeList l).length = 2 * l.length := by
  induction l with
  | nil => rfl
  | cons b rest ih =>
      simp only [hexEncodeList, List.length_cons, ih]
      omega

/-- Every hex digit emitted is a lowercase hex character. -/
theorem hexChar_lower (n : Nat) (h : n < 16) : isLowerHex (hexChar n) = true := by
  interval_cases n <;> decide

/-- A masked nibble encodes to a lowercase hex character. -/
theorem isLowerHex_nibble (b : Nat) : isLowerHex (hexChar (b &&& 15)) = true :=
  hexChar_lower _ (by have := @Nat.and_le_right b 15; omega)

/-- The whole encoding is lowercase hex. -/
theorem hexEncodeList_lower (l : List Nat) : (hexEncodeList l).all isLowerHex = true := by
  induction l with
  | nil => rfl
  | cons b rest ih =>
      simp only [hexEncodeList, List.all_cons, ih, isLowerHex_nibble, Bool.and_self]

set_option maxRecDepth 100000 in
/-- C6. For a readable file, hashFile returns the hex digest of the
SHA-256 of exactly the content bytes (it depends on nothing else), the
digest is 64 lowercase hexadecimal characters, and the file containing
exactly "test\n" hashes to the digest the claim records. -/
theorem claim_C6_hashFile :
    (∀ content, hashFile true content = .ok (hexEncode (sha256bytes content)) ∧
      (hexEncode (sha256bytes content)).length = 64 ∧
      (hexEncode (sha256bytes content)).data.all isLowerHex = true) ∧
    hashFile true [116, 101, 115, 116, 10] =
      .ok "f2ca1bb6c7e907d06dafe4687e579fce76b37e4e93b7605022da52e6ccc26fd2" ∧
    "test\n".data.map Char.toNat = [116, 101, 115, 116, 10] := by
  refine ⟨?_, by rfl, by rfl⟩
  intro content
  refine ⟨rfl, ?_, hexEncodeList_lower _⟩
  show (hexEncodeList (sha256bytes content)).length = 64
  rw [hexEncodeList_length, sha256bytes_length]

/-! ## Claim C5: serialization round trip -/

/-- Decoding inverts encoding on string arrays. -/
theorem decodeStrElems_map (l : List String) : decodeStrElems (l.map .str) = .ok l := by
  induction l with
  | nil => rfl
  | cons s rest ih => simp [List.map_cons, decodeStrElems, ih, Except.map]

/-- Decoding inverts encoding on a single File. -/
theorem decodeFile_encodeFile (f : File) : decodeFile (encodeFile f) = .ok f := by
  cases f
  rfl

/-- Decoding inverts encoding on File arrays. -/
theorem decodeFileElems_map (l : List File) : decodeFileElems (l.map encodeFile) = .ok l := by
  induction l with
  | nil => rfl
  | cons f rest ih =>
      simp only [List.map_cons, decodeFileElems, decodeFile_encodeFile, ih]
      rfl

/-- C5. Decoding the document produced by Marshal returns a Manifest
structurally equal to the original, for every Manifest. -/
theorem claim_C5_roundtrip (m : Manifest) : loadManifest (marshalManifest m) = .ok m := by
  obtain ⟨id, ver, mp, pre, fls⟩ := m
  cases pre with
  | none =>
      cases fls with
      | none => rfl
      | some l =>
          simp only [marshalManifest, loadManifest, encodeStrSlice, lookupField,
            decodeStrField, decodeStrSlice, decodeFileSlice, decodeFileElems_map,
            Except.map, List.foldl, String.reduceEq, reduceIte]
          rfl
  | some p =>
      cases fls with
      | none =>
          simp only [marshalManifest, loadManifest, encodeStrSlice, lookupField,
            decodeStrField, decodeStrSlice, decodeFileSlice, decodeStrElems_map,
            Except.map, List.foldl, String.reduceEq, reduceIte]
          rfl
      | some l =>
          simp only [marshalManifest, loadManifest, encodeStrSlice, lookupField,
            decodeStrField, decodeStrSlice, decodeFileSlice, decodeStrElems_map,
            decodeFileElems_map, Except.map, List.foldl, String.reduceEq, reduceIte]
          rfl

/-! ## Claim C10: Load on missing keys -/

/-- C10. Unmarshalling an object without "prefetch"/"files" keys (such as
the empty JSON object) succeeds and leaves both slices nil, not empty;
whereas every Manifest Generate returns has both slices non-nil. -/
theorem claim_C10_load_missing_keys :
    loadManifest (.obj []) =
      .ok { artifactID := "", version := "", mountPath := "",
            prefetch := none, files := none } ∧
    (∀ root id version urlPre pf m, Generate root id version urlPre pf = .ok m →
      m.prefetch.isSome = true ∧ m.files.isSome = true) := by
  refine ⟨rfl, ?_⟩
  intro root id version urlPre pf m h
  obtain ⟨fs, files, _, _, _, hm⟩ := generate_ok_inv root id version urlPre pf m h
  subst hm
  exact ⟨rfl, rfl⟩

set_option maxRecDepth 100000 in
/-- Witness for C10's Generate side at a concrete run. -/
theorem claim_C10_witness :
    ({ artifactID := "id", version := "v1", mountPath := "/mnt/mlmodel",
       prefetch := some [],
       files := some [File.mk "f.txt" "https://e.com/f.txt" 2
         "8f434346648f6b96df89dda901c5176b10a6d83961dd3c1ac88b59b2dc327aa4" "none"] }
      : Manifest).prefetch.isSome = true ∧
    ({ artifactID := "id", version := "v1", mountPath := "/mnt/mlmodel",
       prefetch := some [],
       files := some [File.mk "f.txt" "https://e.com/f.txt" 2
         "8f434346648f6b96df89dda901c5176b10a6d83961dd3c1ac88b59b2dc327aa4" "none"] }
      : Manifest).files.isSome = true :=
  claim_C10_load_missing_keys.2 (some oneFileTree) "id" "v1" "https://e.com" none
    { artifactID := "id", version := "v1", mountPath := "/mnt/mlmodel",
      prefetch := some [],
      files := some [File.mk "f.txt" "https://e.com/f.txt" 2
        "8f434346648f6b96df89dda901c5176b10a6d83961dd3c1ac88b59b2dc327aa4" "none"] }
    (by rfl)
